import Mathlib

/-!
Verification of the `simple-message-channels` framing protocol.

The development shallowly embeds the two source files of the crate:

* `src/message.rs` — the `Message` type together with `encode_message` and
  `decode_message`, built on the external `varinteger` crate (base-128
  little-endian varints with a continuation bit per byte, as described in
  spec section 4.1; that crate's `decode` indexes the buffer without a
  bounds check, so running past the end of the buffer is a panic, which the
  embedding models as `Option.none`).
* `src/reader.rs` — the streaming decoder: the `decoder` future that reads
  one length-prefix byte at a time, applies the shared cipher, checks the
  accumulating value against `MAX_MESSAGE_SIZE`, then reads and decodes the
  body, and the `poll_next` loop of the `Reader` stream that invokes the
  post-decode callback and re-arms the decoder.

Machine integers (`u64`) are modelled as `Nat` with explicit `% 2 ^ 64`
where the Rust code can wrap.  Fallible operations return `Except`;
a panic (out-of-bounds index) is modelled as `Option.none` around the
result.  The asynchronous reader is modelled as a state machine over the
list of bytes the source will deliver: `Poll::Pending` is invisible in this
eventual-outcome view, a failed `read_exact` surfaces as the end-of-file
error, and each `poll_next` is a pure step function on the reader state.
-/

namespace SMC

/-- Kinds of `std::io::Error` the sources construct or propagate. -/
inductive ErrorKind where
  | invalidInput
  | unexpectedEof
deriving DecidableEq

/-- Model of `std::io::Error`: a kind plus a message string. -/
structure IoError where
  kind : ErrorKind
  msg : String
deriving DecidableEq

/-- The error built by `reader.rs` when the accumulating length prefix
exceeds `MAX_MESSAGE_SIZE`: `Error::new(ErrorKind::InvalidInput, "Message too long")`. -/
def tooLongError : IoError := ⟨.invalidInput, "Message too long"⟩

/-- The error produced by `read_exact` when the source ends before the
requested number of bytes is available (the exact message text is
immaterial to the development). -/
def eofError : IoError := ⟨.unexpectedEof, "early eof"⟩

/- ### Arithmetic helper lemmas

The sources compute with `u64` bit operations; these lemmas restate them
as arithmetic on `Nat`. -/

lemma and127_eq_mod (b : Nat) : b &&& 127 = b % 128 := by
  have h := Nat.and_pow_two_sub_one_eq_mod b 7
  norm_num at h
  exact h

lemma and15_eq_mod (b : Nat) : b &&& 15 = b % 16 := by
  have h := Nat.and_pow_two_sub_one_eq_mod b 4
  norm_num at h
  exact h

lemma shiftLeft4_eq (a : Nat) : a <<< 4 = 16 * a := by
  rw [Nat.shiftLeft_eq]
  omega

lemma shiftRight4_eq (a : Nat) : a >>> 4 = a / 16 := by
  rw [Nat.shiftRight_eq_div_pow]

lemma shiftRight7_eq (a : Nat) : a >>> 7 = a / 128 := by
  rw [Nat.shiftRight_eq_div_pow]

lemma shiftLeft7_eq (a : Nat) : a <<< 7 = a * 128 := by
  rw [Nat.shiftLeft_eq]

lemma or_low_bits (a t : Nat) (ht : t < 16) : 16 * a ||| t = 16 * a + t := by
  have h := Nat.mul_add_lt_is_or (i := 4) (show t < 2 ^ 4 by omega) a
  norm_num at h
  exact h.symm

namespace varinteger

/-- Iterations of the `while value > 127` loop of `varinteger::encode`,
written with an explicit iteration bound `fuel` so that the definition is
structurally recursive (and hence evaluates inside the kernel); `fuel =
value` always suffices because every iteration divides `value` by 128
(see `encode_eq`). -/
def encodeAux : Nat → Nat → List Nat
  | 0, value => [value]
  | fuel + 1, value =>
    if 127 < value then (value % 128 + 128) :: encodeAux fuel (value >>> 7)
    else [value]

/-- Embedding of `varinteger::encode` (the external crate used by
`message.rs`): emit `value % 128` with the continuation bit (`+ 128`) while
`value > 127`, then the final byte.  The Rust loop writes into a
pre-sized buffer; the embedding returns the written bytes. -/
def encode (value : Nat) : List Nat :=
  encodeAux value value

/-- Loop of `varinteger::length`, with the same iteration bound as
`encodeAux`. -/
def lengthAux : Nat → Nat → Nat
  | 0, _ => 1
  | fuel + 1, value =>
    if 127 < value then lengthAux fuel (value >>> 7) + 1
    else 1

/-- Embedding of `varinteger::length`: the number of bytes `encode` emits. -/
def length (value : Nat) : Nat :=
  lengthAux value value

lemma encodeAux_congr : ∀ value f₁ f₂, value ≤ f₁ → value ≤ f₂ →
    encodeAux f₁ value = encodeAux f₂ value := by
  intro value
  induction value using Nat.strong_induction_on with
  | _ value ih =>
    intro f₁ f₂ h₁ h₂
    match f₁, f₂ with
    | 0, 0 => rfl
    | 0, f₂ + 1 =>
      interval_cases value
      simp [encodeAux]
    | f₁ + 1, 0 =>
      interval_cases value
      simp [encodeAux]
    | f₁ + 1, f₂ + 1 =>
      simp only [encodeAux]
      by_cases h : 127 < value
      · rw [if_pos h, if_pos h]
        have hlt : value >>> 7 < value := by
          rw [shiftRight7_eq]
          exact Nat.div_lt_self (by omega) (by norm_num)
        rw [ih _ hlt f₁ f₂ (by omega) (by omega)]
      · rw [if_neg h, if_neg h]

/-- The recursive characterisation of `encode`: exactly the shape of the
crate's loop. -/
theorem encode_eq (value : Nat) :
    encode value =
      if 127 < value then (value % 128 + 128) :: encode (value >>> 7)
      else [value] := by
  by_cases h : 127 < value
  · obtain ⟨f, rfl⟩ : ∃ f, value = f + 1 := ⟨value - 1, by omega⟩
    rw [if_pos h, encode, encodeAux, if_pos h, encode]
    congr 1
    exact encodeAux_congr ((f + 1) >>> 7) f ((f + 1) >>> 7) (by omega) (le_refl _)
  · rw [if_neg h, encode]
    match value, h with
    | 0, _ => rfl
    | v + 1, h => rw [encodeAux, if_neg (by omega)]

lemma lengthAux_congr : ∀ value f₁ f₂, value ≤ f₁ → value ≤ f₂ →
    lengthAux f₁ value = lengthAux f₂ value := by
  intro value
  induction value using Nat.strong_induction_on with
  | _ value ih =>
    intro f₁ f₂ h₁ h₂
    match f₁, f₂ with
    | 0, 0 => rfl
    | 0, f₂ + 1 =>
      interval_cases value
      simp [lengthAux]
    | f₁ + 1, 0 =>
      interval_cases value
      simp [lengthAux]
    | f₁ + 1, f₂ + 1 =>
      simp only [lengthAux]
      by_cases h : 127 < value
      · rw [if_pos h, if_pos h]
        have hlt : value >>> 7 < value := by
          rw [shiftRight7_eq]
          exact Nat.div_lt_self (by omega) (by norm_num)
        rw [ih _ hlt f₁ f₂ (by omega) (by omega)]
      · rw [if_neg h, if_neg h]

/-- The recursive characterisation of `length`: exactly the shape of the
crate's loop. -/
theorem length_eq (value : Nat) :
    length value =
      if 127 < value then length (value >>> 7) + 1
      else 1 := by
  by_cases h : 127 < value
  · obtain ⟨f, rfl⟩ : ∃ f, value = f + 1 := ⟨value - 1, by omega⟩
    rw [if_pos h, length, lengthAux, if_pos h, length]
    congr 1
    exact lengthAux_congr ((f + 1) >>> 7) f ((f + 1) >>> 7) (by omega) (le_refl _)
  · rw [if_neg h, length]
    match value, h with
    | 0, _ => rfl
    | v + 1, h => rw [lengthAux, if_neg (by omega)]

/-- Loop of `varinteger::decode_with_offset`: `val += fac * (byte & 127);
fac <<= 7;` until a byte clears the continuation bit, in wrapping `u64`
arithmetic.  The crate indexes `buf[offset]` directly, so exhausting the
buffer before the varint terminates is a panic, modelled as `none`; on
success the result is the decoded value and the new offset. -/
def decodeLoop (val fac offset : Nat) : List Nat → Option (Nat × Nat)
  | [] => none
  | b :: rest =>
    let val' := (val + fac * (b &&& 127)) % 2 ^ 64
    let fac' := (fac <<< 7) % 2 ^ 64
    if b < 128 then some (val', offset + 1)
    else decodeLoop val' fac' (offset + 1) rest

/-- Embedding of `varinteger::decode buf`: decode one varint from the front
of `buf`, returning the value and the number of bytes consumed. -/
def decode (buf : List Nat) : Option (Nat × Nat) :=
  decodeLoop 0 1 0 buf

end varinteger

/-- The `Message` struct of `message.rs`: a channel (`u64`), a type tag
(`u8`), and the payload bytes (the field is called `message` in the source). -/
structure Message where
  channel : Nat
  typ : Nat
  message : List Nat
deriving DecidableEq

/-- The header value packed by `encode_message`:
`msg.channel << 4 | msg.typ as u64`, in `u64` arithmetic (the left shift
wraps; note the source does not mask `typ`). -/
def message_header (msg : Message) : Nat :=
  ((msg.channel <<< 4) % 2 ^ 64) ||| msg.typ

/-- Embedding of `encode_message` from `message.rs`: the varint length
prefix, the varint-encoded header, then the payload.  The Rust code
pre-allocates `len_body + len_prefix` bytes and fills the three slices
exactly (see `varinteger.encode_length` below), so the buffer is the
concatenation of the three parts. -/
def encode_message (msg : Message) : List Nat :=
  let header := message_header msg
  let len_header := varinteger.length header
  let len_body := msg.message.length + len_header
  varinteger.encode len_body ++ varinteger.encode header ++ msg.message

/-- Embedding of `decode_message` from `message.rs`: decode the header
varint, split it as `channel = header >> 4`, `typ = header & 0b1111`
(the cast `typ as u8` is lossless since `header & 0b1111 < 16`), and take
the remaining bytes as the payload.  The function returns `Ok` on every
path; the only failure is the panic inside `varinteger::decode` when the
buffer ends before the header varint does, modelled as `none`. -/
def decode_message (buf : List Nat) : Option (Except IoError Message) :=
  match varinteger.decode buf with
  | none => none
  | some (header, headerlen) =>
    some (.ok { channel := header >>> 4
                typ := header &&& 15
                message := buf.drop headerlen })

/-- Modelled from the spec: "decode(strip_prefix(encode(...)))" — stripping
the outer length prefix means varint-decoding the leading length and
dropping the bytes it consumed (spec sections 4.2 and 8). -/
def stripLen (buf : List Nat) : List Nat :=
  match varinteger.decode buf with
  | none => []
  | some (_, n) => buf.drop n

/-- Follows the spec's words, for comparison with `message_header`:
"Compute `header = (channel << 4) | (typ & 0xF)`" (spec section 4.2),
in the same `u64` arithmetic. -/
def headerSpec (channel typ : Nat) : Nat :=
  ((channel <<< 4) % 2 ^ 64) ||| (typ &&& 15)

/- ### The streaming decoder of `reader.rs` -/

/-- Modelled from the spec: `MAX_MESSAGE_SIZE` is declared at the crate root,
which is not among the provided sources; the spec fixes only that it is an
upper bound on `body_length` enforced during Phase A accumulation (spec
section 6).  The upstream protocol uses 8 MiB.  All general theorems below
are stated for an arbitrary bound `max`; this constant only instantiates
them. -/
def MAX_MESSAGE_SIZE : Nat := 8 * 1024 * 1024

/-- Modelled from the spec: the Transform Capability of `cipher.rs` (not
among the provided sources) — "apply in place to a byte buffer", advancing
its internal state consistently across every byte read (spec sections 2 and
4.3).  An in-place, state-advancing byte transform is modelled as a
byte-at-a-time step function over an abstract state type `C`. -/
structure Transform (C : Type) where
  applyByte : C → Nat → Nat × C

/-- Applying a Transform to a whole buffer: each byte is rewritten in order
while the state advances (the in-place `apply` of the spec). -/
def Transform.applyBuf {C : Type} (T : Transform C) : C → List Nat → List Nat × C
  | c, [] => ([], c)
  | c, b :: bs =>
    let (b', c') := T.applyByte c b
    let (bs', c'') := T.applyBuf c' bs
    (b' :: bs', c'')

/-- The no-op default transform (`Cipher::empty()` behind `try_apply`):
bytes pass through unchanged and the state (of any type `C`) is untouched. -/
def pureT (C : Type) : Transform C :=
  ⟨fun c b => (b, c)⟩

/-- The length-prefix loop of `decoder` in `reader.rs`: read one byte
(`read_exact` of a 1-byte buffer, end of input is the end-of-file error),
apply the cipher to it, accumulate `varint += (byte & 127) * factor` in
wrapping `u64` arithmetic, stop when the continuation bit is clear, and
after consuming a continuation byte fail with `tooLongError` once the
accumulated value exceeds `max`; otherwise `factor *= 128` and continue. -/
def readVarint {C : Type} (T : Transform C) (max : Nat) :
    Nat → Nat → List Nat → C → Except IoError (Nat × List Nat × C)
  | _, _, [], _ => .error eofError
  | varint, factor, b :: input, c =>
    let (byte, c') := T.applyByte c b
    let varint' := (varint + (byte &&& 127) * factor) % 2 ^ 64
    if byte < 128 then .ok (varint', input, c')
    else if max < varint' then .error tooLongError
    else readVarint T max varint' ((factor * 128) % 2 ^ 64) input c'

/-- Embedding of `decoder` from `reader.rs`: run the length-prefix loop
(`varint`/`factor` start at `0`/`1`), then `read_exact` a body of `varint`
bytes (failing with the end-of-file error if the source has fewer), apply
the cipher to the body, and decode it with `Message::from_buf`.  The outer
`Option` propagates the panic of `decode_message` on a body whose header
varint never terminates; `some (.error e)` is the `Err` the future returns;
on success the message, the remaining input, and the cipher state are
handed back for the next cycle. -/
def decoder {C : Type} (T : Transform C) (max : Nat) (input : List Nat) (c : C) :
    Option (Except IoError (Message × List Nat × C)) :=
  match readVarint T max 0 1 input c with
  | .error e => some (.error e)
  | .ok (varint, rest, c1) =>
    if rest.length < varint then some (.error eofError)
    else
      let (body, c2) := T.applyBuf c1 (rest.take varint)
      match decode_message body with
      | none => none
      | some (.error e) => some (.error e)
      | some (.ok msg) => some (.ok (msg, rest.drop varint, c2))

/-- The state a `Reader` carries between polls: the bytes the buffered
source will still deliver, the shared cipher state captured by the pending
`decoder` future, and the `finished` flag. -/
structure ReaderState (C : Type) where
  input : List Nat
  cipher : C
  finished : Bool
deriving DecidableEq

deriving instance DecidableEq for Except

/-- Outcome of one poll of the `Reader` stream: `item r` is
`Poll::Ready(Some(r))`, `exhausted` is `Poll::Ready(None)`, and `panicked`
models the unwinding of the panic propagated out of `decode_message`
(`Poll::Pending` is invisible in this eventual-outcome model). -/
inductive PollOutcome where
  | item : Except IoError Message → PollOutcome
  | exhausted : PollOutcome
  | panicked : PollOutcome
deriving DecidableEq

/-- Embedding of `Stream::poll_next` for `Reader` in `reader.rs`: when
`finished`, report no further items; otherwise run the pending `decoder`
future to completion.  On `Ok` invoke the `encrypted` callback with the
message and mutable access to the cipher, re-arm the decoder with the
remaining input and updated cipher, and yield the message; on `Err` set
`finished` and yield the error. -/
def poll_next {C : Type} (T : Transform C) (encrypted : Message → C → C) (max : Nat)
    (s : ReaderState C) : PollOutcome × ReaderState C :=
  if s.finished then (.exhausted, s)
  else
    match decoder T max s.input s.cipher with
    | none => (.panicked, s)
    | some (.error e) => (.item (.error e), { s with finished := true })
    | some (.ok (msg, rest, c)) =>
      (.item (.ok msg), { input := rest, cipher := encrypted msg c, finished := false })

/-- The outcome of the `(n+1)`-th poll of the stream, counting from the
given state. -/
def poll_nextN {C : Type} (T : Transform C) (encrypted : Message → C → C) (max : Nat) :
    Nat → ReaderState C → PollOutcome × ReaderState C
  | 0, s => poll_next T encrypted max s
  | n + 1, s => poll_nextN T encrypted max n (poll_next T encrypted max s).2

/-- The reader state after `n` polls. -/
def pollStateN {C : Type} (T : Transform C) (encrypted : Message → C → C) (max : Nat) :
    Nat → ReaderState C → ReaderState C
  | 0, s => s
  | n + 1, s => pollStateN T encrypted max n (poll_next T encrypted max s).2

/-- The list of outcomes of the first `n` polls, in order. -/
def pollTrace {C : Type} (T : Transform C) (encrypted : Message → C → C) (max : Nat) :
    Nat → ReaderState C → List PollOutcome
  | 0, _ => []
  | n + 1, s =>
    (poll_next T encrypted max s).1 :: pollTrace T encrypted max n (poll_next T encrypted max s).2

/-- The sequence of values the length-prefix accumulator takes, one entry
per consumed byte, exactly as Phase A computes them (spec section 4.4:
"accumulate into a little-endian base-128 unsigned value ... tracking a
running total and a positional multiplier"), in wrapping `u64` arithmetic. -/
def accList (varint factor : Nat) : List Nat → List Nat
  | [] => []
  | b :: bs =>
    let v := (varint + (b &&& 127) * factor) % 2 ^ 64
    v :: accList v ((factor * 128) % 2 ^ 64) bs

/-- The accumulator sequence of a byte stream, from the initial
`varint = 0`, `factor = 1`. -/
def accSeq (bytes : List Nat) : List Nat :=
  accList 0 1 bytes

/- ### Lemmas: the no-op transform and the length-prefix loop -/

lemma pureT_applyByte {C : Type} (c : C) (b : Nat) :
    (pureT C).applyByte c b = (b, c) := rfl

lemma pureT_applyBuf {C : Type} : ∀ (l : List Nat) (c : C),
    (pureT C).applyBuf c l = (l, c) := by
  intro l
  induction l with
  | nil => intro c; rfl
  | cons b bs ih =>
    intro c
    simp [Transform.applyBuf, pureT_applyByte, ih c]

/-- Running the length-prefix loop over an encoded varint (with the no-op
cipher) succeeds and consumes exactly the varint, provided the final value
stays within `max + 1` — every intermediate accumulated value is then at
most `max`, so the oversize check never fires. -/
theorem readVarint_encode {C : Type} (max : Nat) (v : Nat) :
    ∀ val fac (rest : List Nat) (c : C), 1 ≤ fac →
      val + fac * v ≤ max + 1 → val + fac * v < 2 ^ 64 →
      readVarint (pureT C) max val fac (varinteger.encode v ++ rest) c =
        .ok (val + fac * v, rest, c) := by
  induction v using Nat.strong_induction_on with
  | _ v ih =>
    intro val fac rest c hfac hmax hlt
    rw [varinteger.encode_eq]
    by_cases h : 127 < v
    · rw [if_pos h, List.cons_append]
      simp only [readVarint, pureT_applyByte]
      rw [if_neg (by omega : ¬ (v % 128 + 128 < 128))]
      have hmask : (v % 128 + 128) &&& 127 = v % 128 := by
        rw [and127_eq_mod]
        omega
      rw [hmask, Nat.mul_comm (v % 128) fac]
      have hvlt : v >>> 7 < v := by
        rw [shiftRight7_eq]
        exact Nat.div_lt_self (by omega) (by norm_num)
      have hsplit : fac * v = fac * (v % 128) + fac * 128 * (v / 128) := by
        conv_lhs => rw [← Nat.mod_add_div v 128]
        ring
      have hq : 0 < v / 128 := Nat.div_pos (by omega) (by norm_num)
      have hB : fac * 128 ≤ fac * 128 * (v / 128) := Nat.le_mul_of_pos_right _ hq
      have hacc : (val + fac * (v % 128)) % 2 ^ 64 = val + fac * (v % 128) :=
        Nat.mod_eq_of_lt (by omega)
      have hfac' : (fac * 128) % 2 ^ 64 = fac * 128 :=
        Nat.mod_eq_of_lt (by omega)
      rw [hacc, hfac']
      rw [if_neg (by omega : ¬ max < val + fac * (v % 128))]
      have hrec := ih (v >>> 7) hvlt (val + fac * (v % 128)) (fac * 128) rest c
        (by omega) (by rw [shiftRight7_eq]; omega) (by rw [shiftRight7_eq]; omega)
      rw [hrec]
      congr 2
      rw [shiftRight7_eq]
      omega
    · rw [if_neg h, List.singleton_append]
      simp only [readVarint, pureT_applyByte]
      rw [if_pos (by omega : v < 128)]
      have hmask : v &&& 127 = v := by
        rw [and127_eq_mod]
        omega
      rw [hmask, Nat.mul_comm v fac, Nat.mod_eq_of_lt hlt]

/-- If every byte of `bytes` has its continuation bit set and the
accumulator exceeds `max` somewhere along `bytes`, the length-prefix loop
fails with the oversize error, regardless of what follows in the input. -/
theorem readVarint_oversized {C : Type} (max : Nat) :
    ∀ (bytes : List Nat), (∀ b ∈ bytes, 128 ≤ b) →
      ∀ val fac (rest : List Nat) (c : C),
        (∃ a ∈ accList val fac bytes, max < a) →
        readVarint (pureT C) max val fac (bytes ++ rest) c = .error tooLongError := by
  intro bytes
  induction bytes with
  | nil =>
    intro _ val fac rest c hex
    simp [accList] at hex
  | cons b bs ih =>
    intro hb val fac rest c hex
    have hb128 : 128 ≤ b := hb b (List.mem_cons_self b bs)
    rw [List.cons_append]
    simp only [readVarint, pureT_applyByte]
    rw [if_neg (by omega : ¬ b < 128)]
    by_cases hchk : max < (val + (b &&& 127) * fac) % 2 ^ 64
    · rw [if_pos hchk]
    · rw [if_neg hchk]
      apply ih (fun x hx => hb x (List.mem_cons_of_mem b hx))
      obtain ⟨a, ha, hmaxa⟩ := hex
      simp only [accList, List.mem_cons] at ha
      cases ha with
      | inl heq =>
        exact absurd (heq ▸ hmaxa) hchk
      | inr htail =>
        exact ⟨a, htail, hmaxa⟩

/-- If every byte of `buf` has its continuation bit set, the varint never
terminates and the crate's decode loop runs off the end of the buffer
(a panic, modelled as `none`). -/
theorem decodeLoop_cont_none : ∀ (buf : List Nat), (∀ b ∈ buf, 128 ≤ b) →
    ∀ val fac offset, varinteger.decodeLoop val fac offset buf = none := by
  intro buf
  induction buf with
  | nil =>
    intro _ val fac offset
    rfl
  | cons b bs ih =>
    intro hb val fac offset
    have hb128 : 128 ≤ b := hb b (List.mem_cons_self b bs)
    simp only [varinteger.decodeLoop]
    rw [if_neg (by omega : ¬ b < 128)]
    exact ih (fun x hx => hb x (List.mem_cons_of_mem b hx)) _ _ _

/- ### Key lemmas about the varint codec -/

/-- The length function of the crate agrees with the length of the bytes
`encode` emits. -/
theorem varinteger.encode_length (v : Nat) :
    (varinteger.encode v).length = varinteger.length v := by
  induction v using Nat.strong_induction_on with
  | _ v ih =>
    rw [varinteger.encode_eq, varinteger.length_eq]
    by_cases h : 127 < v
    · rw [if_pos h, if_pos h]
      have hlt : v >>> 7 < v := by
        rw [shiftRight7_eq]
        exact Nat.div_lt_self (by omega) (by norm_num)
      simp [ih _ hlt]
    · rw [if_neg h, if_neg h]
      rfl

/-- Decoding an encoded varint from the front of a buffer recovers the
value (mod `2 ^ 64`, as the crate accumulates in wrapping `u64`
arithmetic) and consumes exactly its encoded length, regardless of the
bytes that follow. -/
theorem varinteger.decode_encode (v : Nat) :
    ∀ val fac offset (rest : List Nat),
      varinteger.decodeLoop val fac offset (varinteger.encode v ++ rest) =
        some ((val + fac * v) % 2 ^ 64, offset + varinteger.length v) := by
  induction v using Nat.strong_induction_on with
  | _ v ih =>
    intro val fac offset rest
    rw [varinteger.encode_eq, varinteger.length_eq]
    by_cases h : 127 < v
    · rw [if_pos h, if_pos h]
      have hlt : v >>> 7 < v := by
        rw [shiftRight7_eq]
        exact Nat.div_lt_self (by omega) (by norm_num)
      rw [List.cons_append, varinteger.decodeLoop]
      have hb : ¬ (v % 128 + 128 < 128) := by omega
      rw [if_neg hb]
      have hmask : (v % 128 + 128) &&& 127 = v % 128 := by
        rw [and127_eq_mod]
        omega
      rw [hmask, ih _ hlt]
      congr 2
      · -- wrapping accumulation composes: pull the two inner mods out
        rw [shiftLeft7_eq, shiftRight7_eq]
        have h1 : (val + fac * (v % 128)) % 2 ^ 64 ≡ val + fac * (v % 128) [MOD 2 ^ 64] :=
          Nat.mod_modEq _ _
        have h2 : (fac * 128) % 2 ^ 64 ≡ fac * 128 [MOD 2 ^ 64] :=
          Nat.mod_modEq _ _
        have h3 := h1.add (h2.mul_right (v / 128))
        have h4 : val + fac * (v % 128) + fac * 128 * (v / 128) = val + fac * v := by
          have := Nat.mod_add_div v 128
          calc val + fac * (v % 128) + fac * 128 * (v / 128)
              = val + fac * (v % 128 + 128 * (v / 128)) := by ring
            _ = val + fac * v := by rw [this]
        calc ((val + fac * (v % 128)) % 2 ^ 64 + (fac * 128) % 2 ^ 64 * (v / 128)) % 2 ^ 64
            = (val + fac * (v % 128) + fac * 128 * (v / 128)) % 2 ^ 64 := h3
          _ = (val + fac * v) % 2 ^ 64 := by rw [h4]
      · omega
    · rw [if_neg h, if_neg h]
      rw [List.cons_append, varinteger.decodeLoop]
      have hb : v < 128 := by omega
      rw [if_pos hb]
      have hmask : v &&& 127 = v := by
        rw [and127_eq_mod]
        omega
      rw [hmask]

/- ### Lemmas: decoding frames -/

/-- `decode_message` on a buffer that starts with a complete header varint
(value `< 2 ^ 64`) splits the header into channel and type and copies the
remaining bytes. -/
theorem decode_of_header (h : Nat) (payload : List Nat) (hh : h < 2 ^ 64) :
    decode_message (varinteger.encode h ++ payload) =
      some (.ok ⟨h >>> 4, h &&& 15, payload⟩) := by
  have hmod : (0 + 1 * h) % 2 ^ 64 = h := by omega
  have hdec : varinteger.decode (varinteger.encode h ++ payload) =
      some (h, varinteger.length h) := by
    rw [varinteger.decode, varinteger.decode_encode, hmod, Nat.zero_add]
  simp only [decode_message, hdec]
  rw [List.drop_left' (varinteger.encode_length h)]

/-- Stripping the length prefix from an encoded frame leaves the header
varint followed by the payload. -/
theorem stripLen_encode (m : Message) :
    stripLen (encode_message m) =
      varinteger.encode (message_header m) ++ m.message := by
  have hdec : varinteger.decode (encode_message m) =
      some ((0 + 1 * (m.message.length + varinteger.length (message_header m))) % 2 ^ 64,
        0 + varinteger.length (m.message.length + varinteger.length (message_header m))) := by
    simp only [encode_message, List.append_assoc]
    rw [varinteger.decode, varinteger.decode_encode]
  simp only [stripLen, hdec, Nat.zero_add]
  simp only [encode_message, List.append_assoc]
  rw [List.drop_left' (varinteger.encode_length _)]

/-- For an in-range channel and type, the packed header is
`16 * channel + typ` (no wraparound, and the bitwise or is an addition
because the low four bits of `channel <<< 4` are clear). -/
theorem message_header_eq (m : Message) (hc : m.channel < 2 ^ 60) (ht : m.typ < 16) :
    message_header m = 16 * m.channel + m.typ := by
  rw [message_header, shiftLeft4_eq,
    Nat.mod_eq_of_lt (by omega : 16 * m.channel < 2 ^ 64), or_low_bits _ _ ht]

lemma message_header_lt (m : Message) (ht : m.typ < 2 ^ 64) :
    message_header m < 2 ^ 64 :=
  Nat.or_lt_two_pow (Nat.mod_lt _ (by norm_num)) ht

/-- Running `decoder` (with the no-op cipher) on a stream that starts with
an encoded frame whose body length fits under `max` yields the decoded
message, the remaining input, and the untouched cipher state. -/
theorem decoder_frame {C : Type} (max : Nat) (m : Message) (rest : List Nat) (c : C)
    (hlen : m.message.length + varinteger.length (message_header m) ≤ max)
    (hmax : max < 2 ^ 64) (hh : message_header m < 2 ^ 64) :
    decoder (pureT C) max (encode_message m ++ rest) c =
      some (.ok (⟨message_header m >>> 4, message_header m &&& 15, m.message⟩, rest, c)) := by
  have hshape : encode_message m ++ rest =
      varinteger.encode (m.message.length + varinteger.length (message_header m)) ++
        ((varinteger.encode (message_header m) ++ m.message) ++ rest) := by
    simp only [encode_message, List.append_assoc]
  have hread := readVarint_encode (C := C) max
    (m.message.length + varinteger.length (message_header m)) 0 1
    ((varinteger.encode (message_header m) ++ m.message) ++ rest) c
    (by omega) (by omega) (by omega)
  rw [Nat.zero_add, Nat.one_mul] at hread
  have hlen1 : (varinteger.encode (message_header m) ++ m.message).length =
      m.message.length + varinteger.length (message_header m) := by
    rw [List.length_append, varinteger.encode_length]
    omega
  simp only [decoder, hshape, hread]
  rw [if_neg (by rw [List.length_append, hlen1]; omega)]
  rw [List.take_left' hlen1, List.drop_left' hlen1, pureT_applyBuf]
  simp only [decode_of_header (message_header m) m.message hh]

/- ### Lemmas: the reader state machine -/

lemma poll_next_finished {C : Type} (T : Transform C) (enc : Message → C → C) (max : Nat)
    (s : ReaderState C) (h : s.finished = true) :
    poll_next T enc max s = (.exhausted, s) := by
  simp only [poll_next, if_pos h]

lemma poll_nextN_finished {C : Type} (T : Transform C) (enc : Message → C → C) (max : Nat)
    (s : ReaderState C) (h : s.finished = true) :
    ∀ n, poll_nextN T enc max n s = (.exhausted, s) := by
  intro n
  induction n with
  | zero => exact poll_next_finished T enc max s h
  | succ n ih =>
    rw [poll_nextN, poll_next_finished T enc max s h]
    exact ih

/-- Any poll that yields an error item leaves the reader in the `finished`
state. -/
lemma poll_next_error_finished {C : Type} (T : Transform C) (enc : Message → C → C)
    (max : Nat) (s s' : ReaderState C) (e : IoError)
    (h : poll_next T enc max s = (.item (.error e), s')) : s'.finished = true := by
  simp only [poll_next] at h
  by_cases hf : s.finished = true
  · rw [if_pos hf] at h
    simp [Prod.ext_iff] at h
  · rw [if_neg hf] at h
    cases hd : decoder T max s.input s.cipher with
    | none =>
      rw [hd] at h
      simp [Prod.ext_iff] at h
    | some r =>
      cases r with
      | error e' =>
        rw [hd] at h
        simp only [Prod.ext_iff] at h
        rw [← h.2]
      | ok t =>
        obtain ⟨msg, rest2, c2⟩ := t
        rw [hd] at h
        simp [Prod.ext_iff] at h

/- ### Claim theorems -/

/-- C9: `encode_message (Message 0 0 [])` produces exactly the two bytes
`[0x01, 0x00]`: length prefix `0x01`, header `0x00`, empty payload. -/
theorem c9_minimal_frame : encode_message ⟨0, 0, []⟩ = [1, 0] := by
  decide

/-- C1: for every `channel` in `[0, 2 ^ 60)`, `typ` in `[0, 15]`, and
payload byte sequence, stripping the length prefix from
`encode_message (Message channel typ payload)` and applying
`decode_message` yields a message equal to the original. -/
theorem c1_round_trip (channel typ : Nat) (payload : List Nat)
    (hc : channel < 2 ^ 60) (ht : typ ≤ 15) :
    decode_message (stripLen (encode_message ⟨channel, typ, payload⟩)) =
      some (.ok ⟨channel, typ, payload⟩) := by
  have hhdr : message_header ⟨channel, typ, payload⟩ = 16 * channel + typ :=
    message_header_eq ⟨channel, typ, payload⟩ hc (show typ < 16 by omega)
  rw [stripLen_encode, decode_of_header _ _ (by rw [hhdr]; omega), hhdr]
  have h1 : (16 * channel + typ) >>> 4 = channel := by
    rw [shiftRight4_eq]
    omega
  have h2 : (16 * channel + typ) &&& 15 = typ := by
    rw [and15_eq_mod]
    omega
  rw [h1, h2]

/-- Witness for C1 at `channel = 3`, `typ = 5`, `payload = [1, 2]`. -/
theorem c1_round_trip_witness :
    3 < 2 ^ 60 ∧ 5 ≤ 15 ∧
      decode_message (stripLen (encode_message ⟨3, 5, [1, 2]⟩)) =
        some (.ok ⟨3, 5, [1, 2]⟩) :=
  ⟨by decide, by decide, c1_round_trip 3 5 [1, 2] (by decide) (by decide)⟩

/-- C2 (counterexample): at `channel = 0`, `typ = 17` the packed header is
`17`, not `(0 <<< 4) ||| (17 &&& 15) = 1` as the claim's formula demands —
the high bits of `typ` do reach the header, and the emitted frame is
`[0x01, 0x11]`, not `[0x01, 0x01]`. -/
theorem c2_header_counterexample :
    message_header ⟨0, 17, []⟩ = 17 ∧ headerSpec 0 17 = 1 ∧
      encode_message ⟨0, 17, []⟩ = [1, 17] := by
  decide

/-- C2 (amended): `encode_message` packs the header as
`(channel << 4) | typ` with the full 8-bit `typ` — no masking.  The low
four bits of the header always equal `typ & 0xF`; the header is the spec's
`(channel << 4) | (typ & 0xF)` with bits 4..7 of `typ` additionally ORed
into the channel portion, so whenever `typ < 16` it coincides with the
spec's formula (while for `typ ≥ 16` it can differ, as at `channel = 0`,
`typ = 17`). -/
theorem c2_header_packing (m : Message) (ht : m.typ < 256) :
    message_header m &&& 15 = m.typ &&& 15 ∧
      message_header m = headerSpec m.channel m.typ ||| (m.typ >>> 4) <<< 4 ∧
      (m.typ < 16 → message_header m = headerSpec m.channel m.typ) := by
  refine ⟨?_, ?_, ?_⟩
  · rw [message_header, Nat.and_distrib_right]
    have h16 : (m.channel <<< 4) % 2 ^ 64 &&& 15 = 0 := by
      rw [and15_eq_mod, shiftLeft4_eq]
      omega
    rw [h16, Nat.zero_or]
  · have hsplit : m.typ &&& 15 ||| (m.typ >>> 4) <<< 4 = m.typ := by
      rw [and15_eq_mod, shiftRight4_eq, shiftLeft4_eq, Nat.or_comm,
        or_low_bits (m.typ / 16) (m.typ % 16) (Nat.mod_lt _ (by norm_num))]
      omega
    rw [headerSpec, message_header, Nat.or_assoc, hsplit]
  · intro h16
    have htyp : m.typ &&& 15 = m.typ := by
      rw [and15_eq_mod]
      omega
    rw [headerSpec, htyp, message_header]

/-- Witness for C2 (amended) at `channel = 9`, `typ = 17`: the low header
bits are `17 & 0xF = 1` and bit 4 of `typ` lands in the channel portion. -/
theorem c2_header_packing_witness :
    (17 : Nat) < 256 ∧
      (message_header ⟨9, 17, []⟩ &&& 15 = 17 &&& 15 ∧
        message_header ⟨9, 17, []⟩ = headerSpec 9 17 ||| (17 >>> 4) <<< 4 ∧
        (17 < 16 → message_header ⟨9, 17, []⟩ = headerSpec 9 17)) :=
  ⟨by decide, c2_header_packing ⟨9, 17, []⟩ (by decide)⟩

/-- C5 (counterexample): on the empty buffer — and on a buffer whose every
byte keeps the continuation bit set — `decode_message` does not return an
`Err`: the unchecked index inside `varinteger::decode` panics (modelled as
`none`). -/
theorem c5_decode_counterexample :
    decode_message ([] : List Nat) = none ∧ decode_message [128, 128] = none := by
  decide

/-- C5 (amended): `decode_message` never returns a decode error.  When the
buffer is too short to contain a complete header varint the underlying
`varinteger::decode` reads past the end of the buffer — a panic, not an
`Err` — and on every other input the function returns `Ok`; the `Err` arm
of its `Result` type is unreachable. -/
theorem c5_decode_never_err (buf : List Nat) :
    ((∀ b ∈ buf, 128 ≤ b) → decode_message buf = none) ∧
      ∀ e, decode_message buf ≠ some (.error e) := by
  constructor
  · intro hb
    have hnone : varinteger.decode buf = none := decodeLoop_cont_none buf hb 0 1 0
    simp [decode_message, hnone]
  · intro e
    cases hdec : varinteger.decode buf with
    | none => simp [decode_message, hdec]
    | some p =>
      obtain ⟨header, headerlen⟩ := p
      simp [decode_message, hdec]

/-- Witness for C5 (amended) at the one-byte buffer `[0x80]`. -/
theorem c5_decode_never_err_witness :
    decode_message [128] = none ∧ decode_message [128] ≠ some (.error eofError) :=
  ⟨(c5_decode_never_err [128]).1 (by decide), (c5_decode_never_err [128]).2 eofError⟩

/-- C8: encoding a message with `typ = 17` and decoding the prefix-stripped
frame yields a message with `typ = 1 = 17 &&& 15`, as a normal `Ok` result,
not an error. -/
theorem c8_typ17_roundtrip (channel : Nat) (payload : List Nat) (_hc : channel < 2 ^ 64) :
    ∃ ch', decode_message (stripLen (encode_message ⟨channel, 17, payload⟩)) =
        some (.ok ⟨ch', 1, payload⟩) := by
  refine ⟨message_header ⟨channel, 17, payload⟩ >>> 4, ?_⟩
  have hh : message_header ⟨channel, 17, payload⟩ < 2 ^ 64 :=
    message_header_lt ⟨channel, 17, payload⟩ (show (17 : Nat) < 2 ^ 64 by norm_num)
  rw [stripLen_encode, decode_of_header _ _ hh]
  have ht : message_header ⟨channel, 17, payload⟩ &&& 15 = 1 := by
    rw [message_header, Nat.and_distrib_right]
    have h1 : (channel <<< 4) % 2 ^ 64 &&& 15 = 0 := by
      rw [and15_eq_mod, shiftLeft4_eq]
      omega
    show (channel <<< 4) % 2 ^ 64 &&& 15 ||| 17 &&& 15 = 1
    rw [h1]
    decide
  rw [ht]

/-- Witness for C8 at `channel = 3`, `payload = [9]`. -/
theorem c8_typ17_roundtrip_witness :
    3 < 2 ^ 64 ∧
      ∃ ch', decode_message (stripLen (encode_message ⟨3, 17, [9]⟩)) =
          some (.ok ⟨ch', 1, [9]⟩) :=
  ⟨by decide, c8_typ17_roundtrip 3 [9] (by decide)⟩

/-- C10: for an in-range `typ` the header is `(channel * 16 + typ) % 2 ^ 64`
— the left shift silently discards the top bits of any `channel ≥ 2 ^ 60` —
so decoding the encoded frame recovers `channel % 2 ^ 60`, which differs
from the original channel: the round trip fails outside the 60-bit range. -/
theorem c10_channel_wraparound (channel typ : Nat) (payload : List Nat)
    (hbig : 2 ^ 60 ≤ channel) (hc64 : channel < 2 ^ 64) (ht : typ < 16) :
    message_header ⟨channel, typ, payload⟩ = (channel * 16 + typ) % 2 ^ 64 ∧
      decode_message (stripLen (encode_message ⟨channel, typ, payload⟩)) =
        some (.ok ⟨channel % 2 ^ 60, typ, payload⟩) ∧
      channel % 2 ^ 60 ≠ channel := by
  have hkey : message_header ⟨channel, typ, payload⟩ = 16 * (channel % 2 ^ 60) + typ := by
    rw [message_header, shiftLeft4_eq]
    have h1 : (16 * channel) % 2 ^ 64 = 16 * (channel % 2 ^ 60) := by
      have h2 : (2 : Nat) ^ 64 = 16 * 2 ^ 60 := by norm_num
      rw [h2, Nat.mul_mod_mul_left]
    rw [h1, or_low_bits _ _ ht]
  refine ⟨?_, ?_, by omega⟩
  · rw [hkey]
    omega
  · rw [stripLen_encode, decode_of_header _ _ (by rw [hkey]; omega), hkey]
    have h1 : (16 * (channel % 2 ^ 60) + typ) >>> 4 = channel % 2 ^ 60 := by
      rw [shiftRight4_eq]
      omega
    have h2 : (16 * (channel % 2 ^ 60) + typ) &&& 15 = typ := by
      rw [and15_eq_mod]
      omega
    rw [h1, h2]

/-- Witness for C10 at `channel = 2 ^ 60`, `typ = 3`: the header wraps to
`3`, and the decoded channel is `0 ≠ 2 ^ 60`. -/
theorem c10_channel_wraparound_witness :
    2 ^ 60 ≤ 2 ^ 60 ∧ (2 : Nat) ^ 60 < 2 ^ 64 ∧ (3 : Nat) < 16 ∧
      (message_header ⟨2 ^ 60, 3, []⟩ = (2 ^ 60 * 16 + 3) % 2 ^ 64 ∧
        decode_message (stripLen (encode_message ⟨2 ^ 60, 3, []⟩)) =
          some (.ok ⟨2 ^ 60 % 2 ^ 60, 3, []⟩) ∧
        2 ^ 60 % 2 ^ 60 ≠ 2 ^ 60) :=
  ⟨by decide, by decide, by decide,
    c10_channel_wraparound (2 ^ 60) 3 [] (by decide) (by decide) (by decide)⟩

/-- C3 (counterexample): the stream `[0x81, 0x80, 0x80, 0x04]` carries a
leading length-prefix varint that decodes to `8388609 > MAX_MESSAGE_SIZE`,
yet the decoder does not fail with the oversized-message error: the final
prefix byte clears the continuation bit before the check runs, so the
decoder proceeds to the body read — which on this short stream fails with
the end-of-file error instead. -/
theorem c3_oversize_counterexample :
    varinteger.decode [129, 128, 128, 4] = some (8388609, 4) ∧
      MAX_MESSAGE_SIZE < 8388609 ∧
      decoder (pureT Unit) MAX_MESSAGE_SIZE [129, 128, 128, 4] () =
        some (.error eofError) ∧
      eofError ≠ tooLongError := by
  decide

/-- C3 (amended): the size bound is checked only after consuming a
continuation byte, so a length prefix whose accumulating value first
exceeds the bound on its final (continuation-clear) byte is not rejected:
for every bound `max` (in `u64` range) the decoder accepts the prefix
`encode (max + 1)` and proceeds to read a `max + 1`-byte body — failing
here with the end-of-file error because the source has no body at all,
not with the oversized-message error. -/
theorem c3_oversize_only_during_accumulation (max : Nat) (h : max + 1 < 2 ^ 64) :
    decoder (pureT Unit) max (varinteger.encode (max + 1)) () =
      some (.error eofError) := by
  have hread := readVarint_encode (C := Unit) max (max + 1) 0 1 [] ()
    (by omega) (by omega) (by omega)
  rw [List.append_nil, Nat.zero_add, Nat.one_mul] at hread
  simp only [decoder, hread]
  rw [if_pos (by simp : ([] : List Nat).length < max + 1)]

/-- Witness for C3 (amended) at `max = MAX_MESSAGE_SIZE`. -/
theorem c3_oversize_only_during_accumulation_witness :
    MAX_MESSAGE_SIZE + 1 < 2 ^ 64 ∧
      decoder (pureT Unit) MAX_MESSAGE_SIZE
          (varinteger.encode (MAX_MESSAGE_SIZE + 1)) () =
        some (.error eofError) :=
  ⟨by decide, c3_oversize_only_during_accumulation MAX_MESSAGE_SIZE (by decide)⟩

/-- C4: whenever the accumulating length-prefix value exceeds the bound
right after a byte with its continuation bit set (i.e. before the varint
terminates), the decoder yields the oversized-message error — regardless of
the bytes that follow, valid frames included — and every subsequent poll of
the stream reports no further items. -/
theorem c4_oversized_terminal (max : Nat) (bytes rest : List Nat)
    (hb : ∀ b ∈ bytes, 128 ≤ b ∧ b < 256)
    (hacc : ∃ a ∈ accSeq bytes, max < a) :
    (poll_next (pureT Unit) (fun _ c => c) max ⟨bytes ++ rest, (), false⟩).1 =
        .item (.error tooLongError) ∧
      ∀ n, (poll_nextN (pureT Unit) (fun _ c => c) max n
          (poll_next (pureT Unit) (fun _ c => c) max ⟨bytes ++ rest, (), false⟩).2).1 =
        .exhausted := by
  have hdec : decoder (pureT Unit) max (bytes ++ rest) () = some (.error tooLongError) := by
    have hov := readVarint_oversized (C := Unit) max bytes
      (fun b hb' => (hb b hb').1) 0 1 rest () hacc
    simp only [decoder, hov]
  have hpoll : poll_next (pureT Unit) (fun _ c => c) max ⟨bytes ++ rest, (), false⟩ =
      (.item (.error tooLongError), ⟨bytes ++ rest, (), true⟩) := by
    simp only [poll_next]
    rw [if_neg (by simp)]
    rw [hdec]
  refine ⟨by rw [hpoll], ?_⟩
  intro n
  rw [hpoll]
  exact congrArg Prod.fst (poll_nextN_finished _ _ _ _ rfl n)

/-- Witness for C4: four `0xFF` prefix bytes overflow `MAX_MESSAGE_SIZE`
while the varint is still continuing; a well-formed frame `[1, 0]` follows
and is never delivered. -/
theorem c4_oversized_terminal_witness :
    (∀ b ∈ [255, 255, 255, 255], 128 ≤ b ∧ b < 256) ∧
      (∃ a ∈ accSeq [255, 255, 255, 255], MAX_MESSAGE_SIZE < a) ∧
      (poll_next (pureT Unit) (fun _ c => c) MAX_MESSAGE_SIZE
          ⟨[255, 255, 255, 255] ++ [1, 0], (), false⟩).1 =
        .item (.error tooLongError) ∧
      (poll_nextN (pureT Unit) (fun _ c => c) MAX_MESSAGE_SIZE 2
          (poll_next (pureT Unit) (fun _ c => c) MAX_MESSAGE_SIZE
            ⟨[255, 255, 255, 255] ++ [1, 0], (), false⟩).2).1 =
        .exhausted :=
  ⟨by decide, by decide,
    (c4_oversized_terminal MAX_MESSAGE_SIZE [255, 255, 255, 255] [1, 0]
      (by decide) (by decide)).1,
    (c4_oversized_terminal MAX_MESSAGE_SIZE [255, 255, 255, 255] [1, 0]
      (by decide) (by decide)).2 2⟩

/-- C6: once a poll of the `Reader` stream has produced an error item — of
any kind — every subsequent poll returns no further items; the decoder
never resumes after an error. -/
theorem c6_error_exhausts {C : Type} (T : Transform C) (encrypted : Message → C → C)
    (max : Nat) (s s' : ReaderState C) (e : IoError)
    (h : poll_next T encrypted max s = (.item (.error e), s')) :
    ∀ n, (poll_nextN T encrypted max n s').1 = .exhausted := by
  intro n
  rw [poll_nextN_finished T encrypted max s'
    (poll_next_error_finished T encrypted max s s' e h) n]

/-- Witness for C6: an empty source makes the first poll yield the
end-of-file error; the following polls are exhausted. -/
theorem c6_error_exhausts_witness :
    (poll_nextN (pureT Unit) (fun _ c => c) 0 2 ⟨[], (), true⟩).1 = .exhausted :=
  c6_error_exhausts (pureT Unit) (fun _ c => c) 0 ⟨[], (), false⟩ ⟨[], (), true⟩
    eofError (by decide) 2

/-- A message the decoder can reproduce: channel and type in range, and the
encoded body (header varint plus payload) within the size bound. -/
def validFor (max : Nat) (m : Message) : Prop :=
  m.channel < 2 ^ 60 ∧ m.typ < 16 ∧
    m.message.length + varinteger.length (message_header m) ≤ max

instance (max : Nat) (m : Message) : Decidable (validFor max m) :=
  inferInstanceAs (Decidable (_ ∧ _ ∧ _))

/-- C7: a source holding a sequence of valid frames is decoded into the
corresponding messages in strict arrival order, and the post-decode
callback — which receives the cipher state and whose output is the cipher
state the next decode cycle starts from — has run for message `N` before
the decode of message `N + 1` begins: after the polls the cipher state is
the left fold of the callback over the messages in order. -/
theorem c7_in_order_with_callback {C : Type} (encrypted : Message → C → C) (max : Nat)
    (hmax : max < 2 ^ 64) :
    ∀ (msgs : List Message), (∀ m ∈ msgs, validFor max m) → ∀ c₀ : C,
      pollTrace (pureT C) encrypted max msgs.length
          ⟨(msgs.map encode_message).flatten, c₀, false⟩ =
        msgs.map (fun m => .item (.ok m)) ∧
      pollStateN (pureT C) encrypted max msgs.length
          ⟨(msgs.map encode_message).flatten, c₀, false⟩ =
        ⟨[], msgs.foldl (fun c m => encrypted m c) c₀, false⟩ := by
  intro msgs
  induction msgs with
  | nil =>
    intro _ c₀
    exact ⟨rfl, rfl⟩
  | cons m ms ih =>
    intro hv c₀
    obtain ⟨hc, ht, hlen⟩ := hv m (List.mem_cons_self m ms)
    have hhdr : message_header m = 16 * m.channel + m.typ := message_header_eq m hc ht
    have hh64 : message_header m < 2 ^ 64 := by
      rw [hhdr]
      omega
    have hframe := decoder_frame (C := C) max m ((ms.map encode_message).flatten) c₀
      hlen hmax hh64
    have hm : (⟨message_header m >>> 4, message_header m &&& 15, m.message⟩ : Message) = m := by
      have h1 : message_header m >>> 4 = m.channel := by
        rw [hhdr, shiftRight4_eq]
        omega
      have h2 : message_header m &&& 15 = m.typ := by
        rw [hhdr, and15_eq_mod]
        omega
      rw [h1, h2]
    have hpoll : poll_next (pureT C) encrypted max
        ⟨((m :: ms).map encode_message).flatten, c₀, false⟩ =
        (.item (.ok m), ⟨(ms.map encode_message).flatten, encrypted m c₀, false⟩) := by
      simp only [List.map_cons, List.flatten_cons, poll_next]
      rw [if_neg (by simp)]
      rw [hframe, hm]
    have htail := ih (fun m' hm' => hv m' (List.mem_cons_of_mem m hm')) (encrypted m c₀)
    constructor
    · rw [List.length_cons, pollTrace, hpoll]
      simp only [List.map_cons]
      rw [← htail.1]
    · rw [List.length_cons, pollStateN, hpoll]
      rw [List.foldl_cons]
      exact htail.2

/-- Witness for C7: two frames decode, in order, to the two messages, and
the callback log records both channels in arrival order. -/
theorem c7_in_order_with_callback_witness :
    (64 : Nat) < 2 ^ 64 ∧
      (∀ m ∈ [Message.mk 1 2 [7], Message.mk 0 0 []], validFor 64 m) ∧
      pollTrace (pureT (List Nat)) (fun m c => c ++ [m.channel]) 64 2
          ⟨([Message.mk 1 2 [7], Message.mk 0 0 []].map encode_message).flatten, [], false⟩ =
        [.item (.ok ⟨1, 2, [7]⟩), .item (.ok ⟨0, 0, []⟩)] ∧
      pollStateN (pureT (List Nat)) (fun m c => c ++ [m.channel]) 64 2
          ⟨([Message.mk 1 2 [7], Message.mk 0 0 []].map encode_message).flatten, [], false⟩ =
        ⟨[], [1, 0], false⟩ :=
  ⟨by decide, by decide,
    (c7_in_order_with_callback (fun m c => c ++ [m.channel]) 64 (by decide)
      [Message.mk 1 2 [7], Message.mk 0 0 []] (by decide) []).1,
    (c7_in_order_with_callback (fun m c => c ++ [m.channel]) 64 (by decide)
      [Message.mk 1 2 [7], Message.mk 0 0 []] (by decide) []).2⟩

end SMC
